import Mathlib

/-!
# Verification of the `larva` work-stealing thread pool

A shallow embedding of the work-stealing thread pool found in
`thread_manager/thread_pool/stealing_thread_pool.hh` together with its
supporting containers (`threadsafe_container/stealing_queue.hh`,
`threadsafe_container/queue.hh`) and the type-erased task wrapper
(`thread_pool/f_wrapper.hh`).

Queues are modelled as Lean lists (the front of the list is the front of
the C++ `std::deque` / `std::queue`).  A task is a fresh integer id paired
with the zero-argument callable it wraps; the callable either returns a
value or throws, which we model with an `Outcome` sum.  The promise/future
table of `std::packaged_task` / `std::future` is a map from task ids to a
future state (`pending`, `resolved`, or `broken` for an abandoned
promise).  Concurrency is modelled by explicit interleaving: a schedule is
a list of steps (some thread submits, some thread runs one iteration of
`run_pending_task`, or the pool is destroyed), and safety statements are
proved over all schedules.
-/

namespace larva

/-- Result of running a submitted callable: a normal return value or a
thrown exception (`std::packaged_task` stores either into the shared
state). Values and exceptions are abstracted as naturals. -/
inductive Outcome where
  | ok (v : Nat) : Outcome
  | err (e : Nat) : Outcome
deriving DecidableEq, Repr

/-- A submitted task: the wrapped `std::packaged_task`, i.e. a callable
plus the identity of the future it fulfills. -/
structure Task where
  tid : Nat
  fn : Unit → Outcome

/-- State of one `std::future` shared state. -/
inductive FutureSt where
  | pending : FutureSt
  | resolved (o : Outcome) : FutureSt
  | broken : FutureSt
deriving DecidableEq, Repr

namespace stealing_queue

/-- Source `stealing_queue::push`: `_queue.push_front(std::move(data))`. -/
def push {α : Type} (d : α) (q : List α) : List α := d :: q

/-- Source `stealing_queue::try_pop`: remove and return the front item if
present, else report empty. -/
def try_pop {α : Type} : List α → Option (α × List α)
  | [] => none
  | x :: xs => some (x, xs)

/-- Source `stealing_queue::try_steal`: remove and return the back item if
present, else report empty. -/
def try_steal {α : Type} (q : List α) : Option (α × List α) :=
  match q.getLast? with
  | none => none
  | some x => some (x, q.dropLast)

end stealing_queue

namespace threadsafe_queue

/-- Source `threadsafe_queue::push`: `_queue.push(std::move(item))`, appending at
the back of the FIFO. -/
def push {α : Type} (item : α) (q : List α) : List α := q ++ [item]

/-- Source `threadsafe_queue::try_pop`: non-blocking remove-from-front. -/
def try_pop {α : Type} : List α → Option (α × List α)
  | [] => none
  | x :: xs => some (x, xs)

/-- Source `threadsafe_queue::pop`: the blocking variant; it returns only once
the queue is non-empty, so it is modelled on non-empty queues. -/
def pop {α : Type} : (q : List α) → q ≠ [] → α × List α
  | x :: xs, _ => (x, xs)
  | [], h => absurd rfl h

end threadsafe_queue

/-- A sequence of pushes applied to a `threadsafe_queue`. -/
def pushAll {α : Type} (ts : List α) (q : List α) : List α :=
  ts.foldl (fun acc t => threadsafe_queue.push t acc) q

/-- Repeatedly `try_pop` up to `fuel` times, collecting the items in the
order they come out. -/
def drainAll {α : Type} : Nat → List α → List α
  | 0, _ => []
  | fuel + 1, q =>
    match threadsafe_queue.try_pop q with
    | none => []
    | some (x, q') => x :: drainAll fuel q'

namespace f_wrapper

/-- The type-erased wrapper `f_wrapper`: `_impl` is a `unique_ptr` to the
boxed callable, null when default-constructed or moved from.  The wrapped
callable runs for effect, modelled as a state transformer. -/
structure W (σ : Type) where
  impl : Option (σ → σ)

/-- Default constructor `f_wrapper()`: it sets `_impl` to null. -/
def mk_default {σ : Type} : W σ := ⟨none⟩

/-- Converting constructor `f_wrapper(F&& f)`: boxes the callable. -/
def wrap {σ : Type} (f : σ → σ) : W σ := ⟨some f⟩

/-- Move constructor `f_wrapper(f_wrapper&& other)`: takes `other._impl`; moving a
`unique_ptr` leaves the source holding null.  Returns (new, moved-from). -/
def move_from {σ : Type} (other : W σ) : W σ × W σ :=
  (⟨other.impl⟩, ⟨none⟩)

/-- Call operator `f_wrapper::operator()`: `this->_impl->call()`.  There is no null
check: on a wrapper holding no callable this dereferences a null pointer,
which the model reports as `none` (undefined behaviour); on a wrapper
holding `f` it applies `f` exactly once. -/
def call {σ : Type} : W σ → σ → Option σ
  | ⟨none⟩, _ => none
  | ⟨some f⟩, s => some (f s)

end f_wrapper

/-- Observable outcome of running the `stealing_thread_pool` constructor:
how many local queues were allocated, how many worker threads were
spawned, and the `_done` flag. -/
structure PoolInit where
  queues : Nat
  threads : Nat
  done : Bool
deriving DecidableEq, Repr

/-- The constructor loop
`for (unsigned i = 0; i < thread_number; ++i) { _queues.push_back(...); _worker_threads.push_back(std::thread{...}); }`
wrapped in `try { ... } catch (...) { _done = true; throw; }`.
`spawn_ok i` tells whether creating the `i`-th `std::thread` succeeds;
`remaining` counts the iterations left (`thread_number - i`). -/
def ctor_iter (spawn_ok : Nat → Bool) : Nat → Nat → PoolInit → Except PoolInit PoolInit
  | 0, _, st => Except.ok st
  | remaining + 1, i, st =>
    let st1 : PoolInit := { st with queues := st.queues + 1 }
    if spawn_ok i then
      ctor_iter spawn_ok remaining (i + 1) { st1 with threads := st1.threads + 1 }
    else
      Except.error { st1 with done := true }

/-- Constructor `stealing_thread_pool::stealing_thread_pool()`: the only constructor;
its worker count is `std::thread::hardware_concurrency()`, passed here as
the environment parameter `hw`.  On success every queue and thread was
created; on a thread-creation failure the partially built state with
`_done = true` is reported (the exception propagates to the caller). -/
def construct (hw : Nat) (spawn_ok : Nat → Bool) : Except PoolInit PoolInit :=
  ctor_iter spawn_ok hw 0 ⟨0, 0, false⟩

/-- Spec-side worker count: `pool.new(worker_count: Optional<usize>)` as the specification words it:
the worker count is the explicitly supplied count when present, else the
hardware-derived default.  This definition follows the spec's words, to be
compared with `construct`, which is translated from the source.
-/
def spec_pool_new_worker_count (requested : Option Nat) (hw : Nat) : Nat :=
  requested.getD hw

/-- Running state of a `stealing_thread_pool`:
`_done`, the global `_work_queue`, the per-worker `_queues` (front of each
list = front of the deque), the promise/future table, and a counter
allocating fresh task ids. -/
structure PoolState where
  done : Bool
  work_queue : List Task
  queues : List (List Task)
  futures : Nat → FutureSt
  next_id : Nat

/-- The thread-local state a calling thread carries:
`_local_work_queue` (the index of this worker's queue when the thread is a
pool worker, none otherwise — a null pointer in the source) and `_index`
(thread-local, zero-initialised for non-workers). -/
structure ThreadCtx where
  local_work_queue : Option Nat
  index : Nat

/-- The context `worker_thread(index)` installs before entering its loop:
`_index = index; _local_work_queue = _queues[_index].get()`. -/
def worker_ctx (i : Nat) : ThreadCtx := ⟨some i, i⟩

/-- The context of a thread that is not a pool worker. -/
def external_ctx : ThreadCtx := ⟨none, 0⟩

/-- A freshly constructed pool with `n` workers: empty global queue, `n`
empty local queues, no resolved futures. -/
def init_pool (n : Nat) : PoolState :=
  { done := false
    work_queue := []
    queues := List.replicate n []
    futures := fun _ => FutureSt.pending
    next_id := 0 }

/-- Source `stealing_thread_pool::submit(f)`: wrap `f` into a
`std::packaged_task` paired with a fresh future, then
`if (_local_work_queue) _local_work_queue->push(task); else _work_queue.push(task);`.
Returns the future's id and the new pool state. -/
def submit (ctx : ThreadCtx) (f : Unit → Outcome) (st : PoolState) : Nat × PoolState :=
  let tid := st.next_id
  let task : Task := ⟨tid, f⟩
  let st1 : PoolState :=
    { st with
      next_id := tid + 1
      futures := fun i => if i = tid then FutureSt.pending else st.futures i }
  match ctx.local_work_queue with
  | some w =>
      (tid, { st1 with queues := st1.queues.set w (stealing_queue.push task (st1.queues.getD w [])) })
  | none =>
      (tid, { st1 with work_queue := threadsafe_queue.push task st1.work_queue })

/-- Executing a task (`task()` on the popped `f_wrapper`): the
`std::packaged_task` call operator runs the callable and stores its value
— or the exception it threw — into the shared state; it never lets the
exception escape into the worker loop. -/
def exec_task (t : Task) (st : PoolState) : PoolState :=
  { st with
    futures := fun i => if i = t.tid then FutureSt.resolved (t.fn ()) else st.futures i }

/-- Source `pop_task_from_pool_queue`: it runs `_work_queue.try_pop(task)`. -/
def pop_task_from_pool_queue (st : PoolState) : Option (Task × PoolState) :=
  match threadsafe_queue.try_pop st.work_queue with
  | none => none
  | some (t, q) => some (t, { st with work_queue := q })

/-- Source `pop_task_from_local_queue`:
`_local_work_queue && _local_work_queue->try_pop(task)`. -/
def pop_task_from_local_queue (ctx : ThreadCtx) (st : PoolState) : Option (Task × PoolState) :=
  match ctx.local_work_queue with
  | none => none
  | some w =>
    match stealing_queue.try_pop (st.queues.getD w []) with
    | none => none
    | some (t, q) => some (t, { st with queues := st.queues.set w q })

/-- One probe of the steal loop body:
`_queues[index_of_other]->try_steal(task)`. -/
def try_steal_at (idx : Nat) (queues : List (List Task)) : Option (Task × List (List Task)) :=
  match stealing_queue.try_steal (queues.getD idx []) with
  | none => none
  | some (t, q) => some (t, queues.set idx q)

/-- The sequence of victim indices the steal loop visits:
`index_of_other = (_index + i + 1) % _queues.size()` for `i = 0 .. n-1`. -/
def steal_order (own n : Nat) : List Nat :=
  (List.range n).map (fun i => (own + i + 1) % n)

/-- The steal loop: probe each index in turn, returning the first
successful steal. -/
def steal_from_indices (queues : List (List Task)) : List Nat → Option (Task × List (List Task))
  | [] => none
  | idx :: rest =>
    match try_steal_at idx queues with
    | some r => some r
    | none => steal_from_indices queues rest

/-- Source `pop_task_from_other_thread_queue`. -/
def pop_task_from_other_thread_queue (ctx : ThreadCtx) (st : PoolState) :
    Option (Task × PoolState) :=
  match steal_from_indices st.queues (steal_order ctx.index st.queues.length) with
  | none => none
  | some (t, qs) => some (t, { st with queues := qs })

/-- Which branch of `run_pending_task` produced the executed task. -/
inductive Source where
  | fromLocal : Source
  | fromPool : Source
  | stolen : Source
deriving DecidableEq, Repr

/-- Source `stealing_thread_pool::run_pending_task()`: try the local queue, else
the pool queue, else steal; execute the found task, else yield.  Also
reports which task was executed and from where. -/
def run_pending_task (ctx : ThreadCtx) (st : PoolState) :
    Option (Source × Task) × PoolState :=
  match pop_task_from_local_queue ctx st with
  | some (t, st1) => (some (Source.fromLocal, t), exec_task t st1)
  | none =>
    match pop_task_from_pool_queue st with
    | some (t, st1) => (some (Source.fromPool, t), exec_task t st1)
    | none =>
      match pop_task_from_other_thread_queue ctx st with
      | some (t, st1) => (some (Source.stolen, t), exec_task t st1)
      | none => (none, st)

/-- The `worker_thread` loop `while (!_done) run_pending_task();`, cut off
after `fuel` iterations. -/
def worker_loop (ctx : ThreadCtx) : Nat → PoolState → PoolState
  | 0, st => st
  | fuel + 1, st =>
    if st.done then st
    else worker_loop ctx fuel (run_pending_task ctx st).2

/-- Whether a task with id `tid` is still resident in some queue. -/
def resident (st : PoolState) (tid : Nat) : Bool :=
  st.work_queue.any (fun t => t.tid = tid)
    || st.queues.any (fun q => q.any (fun t => t.tid = tid))

/-- Destructor `~stealing_thread_pool()` together with the member destructors it
triggers: `_done = true`, the `_joiner` joins every worker, and destroying
`_queues` and `_work_queue` destroys every still-queued
`std::packaged_task`, which abandons its shared state — a blocked
`future::get()` then receives `std::future_error(broken_promise)`. -/
def destroy (st : PoolState) : PoolState :=
  { done := true
    work_queue := []
    queues := st.queues.map (fun _ => [])
    futures := fun i =>
      if resident st i = true ∧ st.futures i = FutureSt.pending then FutureSt.broken
      else st.futures i
    next_id := st.next_id }

/-- One interleaving step: some thread submits, some thread runs one
iteration of `run_pending_task`, or the pool is destroyed. -/
inductive Step where
  | run (ctx : ThreadCtx) : Step
  | sub (ctx : ThreadCtx) (f : Unit → Outcome) : Step
  | destroy : Step

/-- Apply one step to the pool state. -/
def do_step : Step → PoolState → PoolState
  | Step.run ctx, st => (run_pending_task ctx st).2
  | Step.sub ctx f, st => (submit ctx f st).2
  | Step.destroy, st => destroy st

/-- Run a schedule (list of interleaved steps). -/
def run_sched : List Step → PoolState → PoolState
  | [], st => st
  | s :: rest, st => run_sched rest (do_step s st)

/-- All tasks currently resident in any queue of the pool. -/
def tasks_of (st : PoolState) : List Task :=
  st.work_queue ++ st.queues.flatten

/-- States of one `stealing_queue` reachable from empty through the
queue's own interface, with elements labelled by push order: the `c`-th
push inserts the stamp `c`.  A smaller stamp means an older task. -/
inductive sq_reach : Nat → List Nat → Prop where
  | init : sq_reach 0 []
  | push {c : Nat} {q : List Nat} :
      sq_reach c q → sq_reach (c + 1) (stealing_queue.push c q)
  | pop {c : Nat} {q : List Nat} {x : Nat} {q' : List Nat} :
      sq_reach c q → stealing_queue.try_pop q = some (x, q') → sq_reach c q'
  | steal {c : Nat} {q : List Nat} {x : Nat} {q' : List Nat} :
      sq_reach c q → stealing_queue.try_steal q = some (x, q') → sq_reach c q'

/-- The invariant tying a submitted task's future to its callable: the
id was allocated, every resident task's id was allocated, every resident
copy of the task carries the submitted callable, and the future is
pending, broken by shutdown, or resolved with exactly the callable's
outcome. -/
def tracks (tid : Nat) (f : Unit → Outcome) (st : PoolState) : Prop :=
  tid < st.next_id ∧
  (∀ t ∈ tasks_of st, t.tid < st.next_id) ∧
  (∀ t ∈ tasks_of st, t.tid = tid → t.fn = f) ∧
  (st.futures tid = FutureSt.pending ∨ st.futures tid = FutureSt.broken ∨
    st.futures tid = FutureSt.resolved (f ()))

/-- A callable returning 7, for concrete scenarios. -/
def ok7 : Unit → Outcome := fun _ => Outcome.ok 7

/-- A concrete task with id 0. -/
def task_ok0 : Task := ⟨0, fun _ => Outcome.ok 0⟩

/-- A task that throws (models a callable whose body raises). -/
def task_err3 : Task := ⟨0, fun _ => Outcome.err 3⟩

/-- A second task, returning 5, queued behind `task_err3`. -/
def task_ok5 : Task := ⟨1, fun _ => Outcome.ok 5⟩

/-- A 2-worker pool where worker 0's own queue holds `task_ok0` and
worker 1's queue is empty. -/
def own_queue_state : PoolState :=
  { done := false
    work_queue := []
    queues := [[task_ok0], []]
    futures := fun _ => FutureSt.pending
    next_id := 1 }

/-- A 1-worker pool whose worker queue holds `task_err3` then `task_ok5`. -/
def err_then_ok_state : PoolState :=
  { done := false
    work_queue := []
    queues := [[task_err3, task_ok5]]
    futures := fun _ => FutureSt.pending
    next_id := 2 }

/-- A 2-worker pool where only worker 1's queue holds a task, so worker 0
can only obtain work by stealing. -/
def peer_only_state : PoolState :=
  { done := false
    work_queue := []
    queues := [[], [task_ok0]]
    futures := fun _ => FutureSt.pending
    next_id := 1 }

/-- A 1-worker pool right after an external thread submitted `ok7`. -/
def one_submitted_state : PoolState :=
  (submit external_ctx ok7 (init_pool 1)).2

end larva

namespace larva

lemma sq_try_pop_eq_none {α : Type} {q : List α} :
    stealing_queue.try_pop q = none ↔ q = [] := by
  cases q <;> simp [stealing_queue.try_pop]

lemma sq_try_pop_eq_some {α : Type} {q q' : List α} {x : α} :
    stealing_queue.try_pop q = some (x, q') ↔ q = x :: q' := by
  cases q <;> simp [stealing_queue.try_pop, and_comm, eq_comm]

lemma ts_try_pop_eq_none {α : Type} {q : List α} :
    threadsafe_queue.try_pop q = none ↔ q = [] := by
  cases q <;> simp [threadsafe_queue.try_pop]

lemma ts_try_pop_eq_some {α : Type} {q q' : List α} {x : α} :
    threadsafe_queue.try_pop q = some (x, q') ↔ q = x :: q' := by
  cases q <;> simp [threadsafe_queue.try_pop, and_comm, eq_comm]

lemma sq_try_steal_eq_some {α : Type} {q q' : List α} {x : α} :
    stealing_queue.try_steal q = some (x, q') ↔
      q.getLast? = some x ∧ q' = q.dropLast := by
  unfold stealing_queue.try_steal
  cases h : q.getLast? <;> simp [eq_comm]

/-- The stamp invariant for reachable `stealing_queue` states: stamps
decrease strictly from front to back, and all are below the counter.  So
the front is the newest task and the back is the oldest. -/
lemma sq_reach_invariant {c : Nat} {q : List Nat} (h : sq_reach c q) :
    q.Pairwise (· > ·) ∧ ∀ y ∈ q, y < c := by
  induction h with
  | init => simp
  | @push c q _ ih =>
    obtain ⟨hp, hb⟩ := ih
    refine ⟨List.pairwise_cons.mpr ⟨fun y hy => hb y hy, hp⟩, ?_⟩
    intro y hy
    rcases List.mem_cons.mp hy with rfl | hy
    · exact Nat.lt_succ_self _
    · exact Nat.lt_succ_of_lt (hb y hy)
  | @pop c q x q' _ hpop ih =>
    obtain ⟨hp, hb⟩ := ih
    obtain rfl : q = x :: q' := sq_try_pop_eq_some.mp hpop
    exact ⟨(List.pairwise_cons.mp hp).2, fun y hy => hb y (List.mem_cons_of_mem _ hy)⟩
  | @steal c q x q' _ hsteal ih =>
    obtain ⟨hp, hb⟩ := ih
    obtain ⟨-, rfl⟩ := sq_try_steal_eq_some.mp hsteal
    exact ⟨List.Pairwise.sublist (List.dropLast_sublist q) hp,
      fun y hy => hb y (List.dropLast_subset q hy)⟩

/-- In a strictly front-to-back decreasing list the last element is the
minimum. -/
lemma last_is_min_of_pairwise_gt {x : Nat} :
    ∀ {q : List Nat}, q.Pairwise (· > ·) → q.getLast? = some x →
      ∀ y ∈ q, x ≤ y := by
  intro q
  induction q with
  | nil => intro _ h; simp at h
  | cons a l ih =>
    intro hp h y hy
    cases l with
    | nil =>
      simp at h hy
      omega
    | cons b t =>
      rw [List.getLast?_cons_cons] at h
      have hmem : x ∈ b :: t := List.mem_of_getLast?_eq_some h
      have ha : a > x := (List.pairwise_cons.mp hp).1 x hmem
      rcases List.mem_cons.mp hy with rfl | hy'
      · omega
      · exact ih (List.pairwise_cons.mp hp).2 h y hy'

/-- C6: `stealing_queue::push` inserts at the front of the deque and
`try_pop` removes from the front, so the owner sees LIFO order (an
immediate `try_pop` after `push(t)` returns `t`); `try_steal` removes
from the back, and on every state reachable through the queue interface
the back holds the oldest still-queued task (minimal push stamp), so a
thief always receives the oldest still-queued task. -/
theorem C6_deque_lifo_fifo :
    (∀ (x : Nat) (q : List Nat),
        stealing_queue.try_pop (stealing_queue.push x q) = some (x, q)) ∧
    (∀ (q q' : List Nat) (x : Nat),
        stealing_queue.try_steal q = some (x, q') →
        q.getLast? = some x ∧ q' = q.dropLast) ∧
    (∀ (c : Nat) (q : List Nat) (x : Nat) (q' : List Nat),
        sq_reach c q → stealing_queue.try_steal q = some (x, q') →
        ∀ y ∈ q, x ≤ y) := by
  refine ⟨fun x q => rfl, fun q q' x h => sq_try_steal_eq_some.mp h, ?_⟩
  intro c q x q' hreach hsteal y hy
  obtain ⟨hlast, -⟩ := sq_try_steal_eq_some.mp hsteal
  exact last_is_min_of_pairwise_gt (sq_reach_invariant hreach).1 hlast y hy

/-- Witness for C6 at the concrete state reached by pushing stamps 0 then
1: the queue is `[1, 0]`, a steal returns the oldest stamp 0, and 0 is
minimal among the queued stamps. -/
theorem C6_witness :
    stealing_queue.try_steal [1, 0] = some (0, [1]) ∧
    sq_reach 2 [1, 0] ∧ ∀ y ∈ ([1, 0] : List Nat), (0 : Nat) ≤ y :=
  ⟨rfl, sq_reach.push (sq_reach.push sq_reach.init),
    C6_deque_lifo_fifo.2.2 2 [1, 0] 0 [1]
      (sq_reach.push (sq_reach.push sq_reach.init)) rfl⟩

lemma pushAll_eq_append {α : Type} (ts : List α) :
    ∀ q : List α, pushAll ts q = q ++ ts := by
  induction ts with
  | nil => intro q; simp [pushAll]
  | cons t ts ih =>
    intro q
    have : pushAll (t :: ts) q = pushAll ts (q ++ [t]) := rfl
    rw [this, ih]
    simp

lemma drainAll_self {α : Type} : ∀ l : List α, drainAll l.length l = l := by
  intro l
  induction l with
  | nil => rfl
  | cons x xs ih => simp [drainAll, threadsafe_queue.try_pop, ih]

/-- C8: the global `threadsafe_queue` is FIFO: `push` appends at the back
and `try_pop`/`pop` remove from the front, so any sequence of pushed
tasks comes back out in exactly push order, and the blocking `pop` agrees
with `try_pop` on a non-empty queue. -/
theorem C8_global_fifo (ts q : List Task) :
    pushAll ts q = q ++ ts ∧
    drainAll (pushAll ts []).length (pushAll ts []) = ts ∧
    (∀ (x : Task) (xs : List Task) (h : x :: xs ≠ []),
        threadsafe_queue.pop (x :: xs) h = (x, xs)) ∧
    (∀ h : q ≠ [], threadsafe_queue.try_pop q = some (threadsafe_queue.pop q h)) := by
  refine ⟨pushAll_eq_append ts q, ?_, fun x xs h => rfl, ?_⟩
  · rw [pushAll_eq_append ts []]
    simpa using drainAll_self ts
  · intro h
    cases q with
    | nil => exact absurd rfl h
    | cons x xs => rfl

/-- Witness for C8 at a concrete queue: blocking `pop` on `[task_ok0]`
returns the front task. -/
theorem C8_witness :
    ((task_ok0 :: []) : List Task) ≠ [] ∧
    threadsafe_queue.pop [task_ok0] (by simp) = (task_ok0, []) :=
  ⟨by simp, (C8_global_fifo [] []).2.2.1 task_ok0 [] (by simp)⟩

/-- C10: `f_wrapper::operator()` does `this->_impl->call()` with no null
guard: on a default-constructed or moved-from wrapper (null `_impl`) it
dereferences a null pointer (modelled `none`); on a wrapper actually
holding a callable it invokes that callable exactly once (the result is
`some (f s)`, one application of `f`). -/
theorem C10_call_unguarded {σ : Type} (f : σ → σ) (s : σ) (w : f_wrapper.W σ) :
    f_wrapper.call f_wrapper.mk_default s = none ∧
    f_wrapper.call (f_wrapper.move_from w).2 s = none ∧
    f_wrapper.call (f_wrapper.wrap f) s = some (f s) :=
  ⟨rfl, rfl, rfl⟩

end larva

namespace larva

lemma ctor_iter_all_ok (spawn_ok : Nat → Bool) (remaining : Nat) :
    ∀ (i : Nat) (st : PoolInit),
      (∀ j, i ≤ j → j < i + remaining → spawn_ok j = true) →
      ctor_iter spawn_ok remaining i st =
        Except.ok ⟨st.queues + remaining, st.threads + remaining, st.done⟩ := by
  induction remaining with
  | zero => intro i st _; simp [ctor_iter]
  | succ m ih =>
    intro i st h
    have hi : spawn_ok i = true := h i le_rfl (by omega)
    have hrec := ih (i + 1)
      { queues := st.queues + 1, threads := st.threads + 1, done := st.done }
      (fun j h1 h2 => h j (by omega) (by omega))
    simp only [ctor_iter, hi, if_true]
    rw [hrec]
    simp [PoolInit.mk.injEq]
    omega

lemma ctor_iter_first_fail (spawn_ok : Nat → Bool) (remaining : Nat) :
    ∀ (i k : Nat) (st : PoolInit),
      i ≤ k → k < i + remaining → spawn_ok k = false →
      (∀ j, i ≤ j → j < k → spawn_ok j = true) →
      ctor_iter spawn_ok remaining i st =
        Except.error ⟨st.queues + (k - i) + 1, st.threads + (k - i), true⟩ := by
  induction remaining with
  | zero => intro i k st h1 h2 _ _; omega
  | succ m ih =>
    intro i k st hik hk hkf hok
    by_cases hik' : i = k
    · subst hik'
      simp [ctor_iter, hkf]
    · have hi : spawn_ok i = true := hok i le_rfl (by omega)
      have hrec := ih (i + 1) k
        { queues := st.queues + 1, threads := st.threads + 1, done := st.done }
        (by omega) (by omega) hkf (fun j h1 h2 => hok j (by omega) h2)
      simp only [ctor_iter, hi, if_true]
      rw [hrec]
      simp [PoolInit.mk.injEq]
      omega

/-- C9 (amended): the pool's only constructor takes no worker count; it
spawns exactly `hardware_concurrency()` worker threads with one local
queue per worker, and if creating some thread throws, the constructor
sets `_done` and lets the failure propagate, leaving a queue allocated
for each attempted worker and one extra. -/
theorem C9_ctor_hw_only (hw : Nat) (spawn_ok : Nat → Bool) :
    ((∀ i, i < hw → spawn_ok i = true) →
        construct hw spawn_ok = Except.ok ⟨hw, hw, false⟩) ∧
    (∀ k, k < hw → spawn_ok k = false → (∀ j, j < k → spawn_ok j = true) →
        construct hw spawn_ok = Except.error ⟨k + 1, k, true⟩) := by
  constructor
  · intro h
    have := ctor_iter_all_ok spawn_ok hw 0 ⟨0, 0, false⟩
      (fun j _ h2 => h j (by omega))
    simpa [construct] using this
  · intro k hk hkf hok
    have := ctor_iter_first_fail spawn_ok hw 0 k ⟨0, 0, false⟩
      (Nat.zero_le _) (by omega) hkf (fun j _ h2 => hok j h2)
    simpa [construct] using this

/-- Witness for C9's amended statement: with 3 workers and all spawns
succeeding, construction yields 3 queues, 3 threads, `_done = false`. -/
theorem C9_witness : construct 3 (fun _ => true) = Except.ok ⟨3, 3, false⟩ :=
  (C9_ctor_hw_only 3 (fun _ => true)).1 (fun _ _ => rfl)

/-- Counterexample to C9 as stated: the claim says the pool can be
constructed with an explicitly supplied worker count.  The source's only
constructor is the default one; its worker count is
`std::thread::hardware_concurrency()` alone.  With hardware concurrency 4
the spec's `pool.new(some 2)` requires 2 workers, but the code's
constructor yields 4 — there is no input through which the caller can
request 2. -/
theorem C9_counterexample :
    spec_pool_new_worker_count (some 2) 4 = 2 ∧
    construct 4 (fun _ => true) = Except.ok ⟨4, 4, false⟩ ∧
    (2 : Nat) ≠ 4 :=
  ⟨rfl, rfl, by omega⟩

end larva

namespace larva

lemma mem_getD_flatten {u : Task} {L : List (List Task)} {w : Nat}
    (h : u ∈ L.getD w []) : u ∈ L.flatten := by
  by_cases hw : w < L.length
  · rw [List.getD_eq_getElem L [] hw] at h
    exact List.mem_flatten.mpr ⟨L[w], List.getElem_mem hw, h⟩
  · rw [List.getD_eq_getElem?_getD, List.getElem?_eq_none (Nat.le_of_not_lt hw)] at h
    simp at h

lemma mem_flatten_set {u : Task} {L : List (List Task)} {w : Nat} {q : List Task}
    (hq : ∀ v ∈ q, v ∈ L.flatten) (h : u ∈ (L.set w q).flatten) : u ∈ L.flatten := by
  rcases List.mem_flatten.mp h with ⟨l, hl, hu⟩
  rcases List.mem_or_eq_of_mem_set hl with hl' | rfl
  · exact List.mem_flatten.mpr ⟨l, hl', hu⟩
  · exact hq u hu

lemma getD_set_self {α : Type} {L : List α} {w : Nat} {a d : α}
    (hw : w < L.length) : (L.set w a).getD w d = a := by
  rw [List.getD_eq_getElem?_getD, List.getElem?_set_self (by simpa using hw)]
  rfl

lemma getD_set_ne {α : Type} {L : List α} {w j : Nat} {a d : α}
    (hj : j ≠ w) : (L.set w a).getD j d = L.getD j d := by
  rw [List.getD_eq_getElem?_getD, List.getElem?_set_ne (Ne.symm hj),
    ← List.getD_eq_getElem?_getD]

/-- What a successful local pop did: the popped task was resident, the
remaining tasks were already resident, and the flag, futures and id
counter are untouched. -/
lemma pop_local_spec {ctx : ThreadCtx} {st : PoolState} {t : Task} {st' : PoolState}
    (h : pop_task_from_local_queue ctx st = some (t, st')) :
    t ∈ tasks_of st ∧ (∀ u ∈ tasks_of st', u ∈ tasks_of st) ∧
    st'.futures = st.futures ∧ st'.next_id = st.next_id ∧ st'.done = st.done := by
  unfold pop_task_from_local_queue at h
  cases hctx : ctx.local_work_queue with
  | none => simp only [hctx] at h; exact Option.noConfusion h
  | some w =>
    simp only [hctx] at h
    cases hq : stealing_queue.try_pop (st.queues.getD w []) with
    | none => simp only [hq] at h; exact Option.noConfusion h
    | some p =>
      obtain ⟨tp, q⟩ := p
      simp only [hq, Option.some.injEq, Prod.mk.injEq] at h
      obtain ⟨rfl, rfl⟩ := h
      have hcons : st.queues.getD w [] = tp :: q := sq_try_pop_eq_some.mp hq
      refine ⟨?_, ?_, rfl, rfl, rfl⟩
      · exact List.mem_append_right _ (mem_getD_flatten (hcons ▸ List.mem_cons_self tp q))
      · intro u hu
        rcases List.mem_append.mp hu with hu' | hu'
        · exact List.mem_append_left _ hu'
        · refine List.mem_append_right _ (mem_flatten_set ?_ hu')
          intro v hv
          exact mem_getD_flatten (hcons ▸ List.mem_cons_of_mem tp hv)

/-- What a successful global-queue pop did. -/
lemma pop_pool_spec {st : PoolState} {t : Task} {st' : PoolState}
    (h : pop_task_from_pool_queue st = some (t, st')) :
    t ∈ tasks_of st ∧ (∀ u ∈ tasks_of st', u ∈ tasks_of st) ∧
    st'.futures = st.futures ∧ st'.next_id = st.next_id ∧ st'.done = st.done := by
  unfold pop_task_from_pool_queue at h
  cases hq : threadsafe_queue.try_pop st.work_queue with
  | none => simp only [hq] at h; exact Option.noConfusion h
  | some p =>
    obtain ⟨tp, q⟩ := p
    simp only [hq, Option.some.injEq, Prod.mk.injEq] at h
    obtain ⟨rfl, rfl⟩ := h
    have hcons : st.work_queue = tp :: q := ts_try_pop_eq_some.mp hq
    refine ⟨List.mem_append_left _ (hcons ▸ List.mem_cons_self tp q), ?_, rfl, rfl, rfl⟩
    intro u hu
    rcases List.mem_append.mp hu with hu' | hu'
    · exact List.mem_append_left _ (hcons ▸ List.mem_cons_of_mem tp hu')
    · exact List.mem_append_right _ hu'

/-- A successful probe of the steal loop: task membership and shrinkage. -/
lemma try_steal_at_spec {idx : Nat} {queues : List (List Task)} {t : Task}
    {qs' : List (List Task)} (h : try_steal_at idx queues = some (t, qs')) :
    t ∈ queues.flatten ∧ ∀ u ∈ qs'.flatten, u ∈ queues.flatten := by
  unfold try_steal_at at h
  cases hs : stealing_queue.try_steal (queues.getD idx []) with
  | none => simp only [hs] at h; exact Option.noConfusion h
  | some p =>
    obtain ⟨x, q'⟩ := p
    simp only [hs, Option.some.injEq, Prod.mk.injEq] at h
    obtain ⟨rfl, rfl⟩ := h
    obtain ⟨hlast, rfl⟩ := sq_try_steal_eq_some.mp hs
    constructor
    · exact mem_getD_flatten (List.mem_of_getLast?_eq_some hlast)
    · intro u hu
      refine mem_flatten_set ?_ hu
      intro v hv
      exact mem_getD_flatten (List.dropLast_subset _ hv)

/-- The steal loop returns the result of some successful probe. -/
lemma steal_from_indices_some {queues : List (List Task)} {t : Task}
    {qs' : List (List Task)} :
    ∀ {idxs : List Nat}, steal_from_indices queues idxs = some (t, qs') →
      ∃ idx ∈ idxs, try_steal_at idx queues = some (t, qs') := by
  intro idxs
  induction idxs with
  | nil => intro h; cases h
  | cons a l ih =>
    intro h
    unfold steal_from_indices at h
    cases ha : try_steal_at a queues with
    | some r =>
      simp only [ha] at h
      exact ⟨a, List.mem_cons_self a l, ha.trans h⟩
    | none =>
      simp only [ha] at h
      obtain ⟨idx, hmem, hsteal⟩ := ih h
      exact ⟨idx, List.mem_cons_of_mem a hmem, hsteal⟩

/-- Probes before the first success do not change the loop's answer. -/
lemma steal_from_indices_append_none {queues : List (List Task)} :
    ∀ {pre rest : List Nat}, (∀ i ∈ pre, try_steal_at i queues = none) →
      steal_from_indices queues (pre ++ rest) = steal_from_indices queues rest := by
  intro pre
  induction pre with
  | nil => intro rest _; rfl
  | cons a l ih =>
    intro rest h
    have ha : try_steal_at a queues = none := h a (List.mem_cons_self a l)
    have hstep : steal_from_indices queues ((a :: l) ++ rest) =
        steal_from_indices queues (l ++ rest) := by
      show (match try_steal_at a queues with
        | some r => some r
        | none => steal_from_indices queues (l ++ rest)) = _
      rw [ha]
    rw [hstep, ih (fun i hi => h i (List.mem_cons_of_mem a hi))]

/-- What a successful steal did to the pool. -/
lemma pop_other_spec {ctx : ThreadCtx} {st : PoolState} {t : Task} {st' : PoolState}
    (h : pop_task_from_other_thread_queue ctx st = some (t, st')) :
    t ∈ tasks_of st ∧ (∀ u ∈ tasks_of st', u ∈ tasks_of st) ∧
    st'.futures = st.futures ∧ st'.next_id = st.next_id ∧ st'.done = st.done := by
  unfold pop_task_from_other_thread_queue at h
  cases hs : steal_from_indices st.queues (steal_order ctx.index st.queues.length) with
  | none => simp only [hs] at h; exact Option.noConfusion h
  | some p =>
    obtain ⟨tp, qs⟩ := p
    simp only [hs, Option.some.injEq, Prod.mk.injEq] at h
    obtain ⟨rfl, rfl⟩ := h
    obtain ⟨idx, -, hsteal⟩ := steal_from_indices_some hs
    obtain ⟨hmem, hsub⟩ := try_steal_at_spec hsteal
    refine ⟨List.mem_append_right _ hmem, ?_, rfl, rfl, rfl⟩
    intro u hu
    rcases List.mem_append.mp hu with hu' | hu'
    · exact List.mem_append_left _ hu'
    · exact List.mem_append_right _ (hsub u hu')

/-- The full behaviour of one `run_pending_task` iteration: either
nothing was found and the state is unchanged (yield), or some resident
task was removed, executed, and its future resolved with its callable's
outcome, everything else untouched. -/
lemma run_spec (ctx : ThreadCtx) (st : PoolState) :
    ((run_pending_task ctx st).1 = none ∧ (run_pending_task ctx st).2 = st) ∨
    (∃ src t, (run_pending_task ctx st).1 = some (src, t) ∧ t ∈ tasks_of st ∧
      (run_pending_task ctx st).2.futures =
        (fun i => if i = t.tid then FutureSt.resolved (t.fn ()) else st.futures i) ∧
      (∀ u ∈ tasks_of (run_pending_task ctx st).2, u ∈ tasks_of st) ∧
      (run_pending_task ctx st).2.next_id = st.next_id ∧
      (run_pending_task ctx st).2.done = st.done) := by
  unfold run_pending_task
  cases hloc : pop_task_from_local_queue ctx st with
  | some p =>
    obtain ⟨t, st1⟩ := p
    obtain ⟨hmem, hsub, hfut, hnext, hdone⟩ := pop_local_spec hloc
    exact Or.inr ⟨Source.fromLocal, t, rfl, hmem, by funext i; simp [exec_task, hfut],
      fun u hu => hsub u hu, hnext, hdone⟩
  | none =>
    cases hpool : pop_task_from_pool_queue st with
    | some p =>
      obtain ⟨t, st1⟩ := p
      obtain ⟨hmem, hsub, hfut, hnext, hdone⟩ := pop_pool_spec hpool
      exact Or.inr ⟨Source.fromPool, t, rfl, hmem, by funext i; simp [exec_task, hfut],
        fun u hu => hsub u hu, hnext, hdone⟩
    | none =>
      cases hother : pop_task_from_other_thread_queue ctx st with
      | some p =>
        obtain ⟨t, st1⟩ := p
        obtain ⟨hmem, hsub, hfut, hnext, hdone⟩ := pop_other_spec hother
        exact Or.inr ⟨Source.stolen, t, rfl, hmem, by funext i; simp [exec_task, hfut],
          fun u hu => hsub u hu, hnext, hdone⟩
      | none => exact Or.inl ⟨rfl, rfl⟩

end larva

namespace larva

lemma steal_order_getLast {own n : Nat} (hn : 0 < n) :
    (steal_order own n).getLast? = some (own % n) := by
  cases n with
  | zero => omega
  | succ m =>
    simp only [steal_order, List.range_succ, List.map_append, List.map_cons,
      List.map_nil]
    rw [List.getLast?_concat]
    exact congrArg some (Nat.add_mod_right own (m + 1))

/-- C2 (amended): the steal scan visits the queue indices
`(own + 1) % n, (own + 2) % n, …, (own + n) % n` in that order — the last
probe lands back on the worker's own queue index — and stops at the first
index whose `try_steal` succeeds, returning that task. -/
theorem C2_steal_scan (ctx : ThreadCtx) (st : PoolState) (pre post : List Nat) (idx : Nat)
    (t : Task) (qs' : List (List Task))
    (hn : 0 < st.queues.length)
    (horder : steal_order ctx.index st.queues.length = pre ++ idx :: post)
    (hfail : ∀ i ∈ pre, try_steal_at i st.queues = none)
    (hsucc : try_steal_at idx st.queues = some (t, qs')) :
    pop_task_from_other_thread_queue ctx st = some (t, { st with queues := qs' }) ∧
    (steal_order ctx.index st.queues.length).getLast? =
      some (ctx.index % st.queues.length) := by
  constructor
  · unfold pop_task_from_other_thread_queue
    rw [horder, steal_from_indices_append_none hfail]
    simp only [steal_from_indices, hsucc]
  · exact steal_order_getLast hn

/-- Witness for C2's amended statement: worker 0 of a 2-worker pool with
its own queue empty and worker 1's queue holding `task_ok0` steals from
queue 1, the first probed index. -/
theorem C2_witness :
    0 < peer_only_state.queues.length ∧
    pop_task_from_other_thread_queue (worker_ctx 0) peer_only_state =
      some (task_ok0, { peer_only_state with queues := [[], []] }) :=
  ⟨by simp [peer_only_state],
    (C2_steal_scan (worker_ctx 0) peer_only_state [] [0] 1 task_ok0 [[], []]
      (by simp [peer_only_state]) rfl (fun i hi => absurd hi (List.not_mem_nil i))
      rfl).1⟩

/-- Counterexample to C2 as stated: the claim says a worker scans only
the local queues of *other* workers, never its own.  With 2 workers the
scan order of worker 0 is `[1, 0]`: its own index 0 is visited (last),
and in a state where queue 1 is empty while worker 0's own queue holds
`task_ok0`, the scan succeeds by stealing from the worker's own queue. -/
theorem C2_counterexample :
    steal_order 0 2 = [1, 0] ∧
    pop_task_from_other_thread_queue (worker_ctx 0) own_queue_state =
      some (task_ok0, { own_queue_state with queues := [[], []] }) :=
  ⟨rfl, rfl⟩

/-- C5: `submit` routes by the caller's thread-local `_local_work_queue`:
a worker's submission is pushed onto that worker's own local queue (front)
leaving the global queue and every other local queue unchanged; a
non-worker's submission is appended to the global queue leaving every
local queue unchanged. -/
theorem C5_submit_routing (f : Unit → Outcome) (st : PoolState) (w : Nat)
    (hw : w < st.queues.length) :
    ((submit (worker_ctx w) f st).2.work_queue = st.work_queue ∧
     (submit (worker_ctx w) f st).2.queues.getD w [] =
        stealing_queue.push ⟨st.next_id, f⟩ (st.queues.getD w []) ∧
     (∀ j, j ≠ w →
        (submit (worker_ctx w) f st).2.queues.getD j [] = st.queues.getD j [])) ∧
    ((submit external_ctx f st).2.work_queue =
        threadsafe_queue.push ⟨st.next_id, f⟩ st.work_queue ∧
     (submit external_ctx f st).2.queues = st.queues) := by
  refine ⟨⟨rfl, ?_, ?_⟩, rfl, rfl⟩
  · exact getD_set_self hw
  · intro j hj
    exact getD_set_ne hj

/-- Witness for C5 on a fresh 2-worker pool: worker 0's submission lands
at the front of its own local queue. -/
theorem C5_witness :
    0 < (init_pool 2).queues.length ∧
    (submit (worker_ctx 0) ok7 (init_pool 2)).2.queues.getD 0 [] =
      stealing_queue.push ⟨(init_pool 2).next_id, ok7⟩ ((init_pool 2).queues.getD 0 []) :=
  ⟨by simp [init_pool],
    ((C5_submit_routing ok7 (init_pool 2) 0 (by simp [init_pool])).1).2.1⟩

/-- C7: within one `run_pending_task` iteration a steal is reported only
when, in that same iteration, the worker's own local queue and the global
queue were both found empty — the short-circuit
`pop_local || pop_pool || pop_other` never steals while local or global
work was found. -/
theorem C7_steal_requires_both_empty (ctx : ThreadCtx) (st : PoolState) (w : Nat)
    (t : Task) (hctx : ctx.local_work_queue = some w)
    (hrun : (run_pending_task ctx st).1 = some (Source.stolen, t)) :
    st.queues.getD w [] = [] ∧ st.work_queue = [] := by
  unfold run_pending_task at hrun
  cases hloc : pop_task_from_local_queue ctx st with
  | some p =>
    obtain ⟨t', st1⟩ := p
    simp only [hloc] at hrun
    simp at hrun
  | none =>
    cases hpool : pop_task_from_pool_queue st with
    | some p =>
      obtain ⟨t', st1⟩ := p
      simp only [hloc, hpool] at hrun
      simp at hrun
    | none =>
      constructor
      · unfold pop_task_from_local_queue at hloc
        simp only [hctx] at hloc
        cases hq : stealing_queue.try_pop (st.queues.getD w []) with
        | some p =>
          obtain ⟨a, b⟩ := p
          simp only [hq] at hloc
          exact Option.noConfusion hloc
        | none => exact sq_try_pop_eq_none.mp hq
      · unfold pop_task_from_pool_queue at hpool
        cases hq : threadsafe_queue.try_pop st.work_queue with
        | some p =>
          obtain ⟨a, b⟩ := p
          simp only [hq] at hpool
          exact Option.noConfusion hpool
        | none => exact ts_try_pop_eq_none.mp hq

/-- Witness for C7: worker 0 of `peer_only_state` steals `task_ok0` from
worker 1, and indeed its own queue and the global queue are both empty. -/
theorem C7_witness :
    (worker_ctx 0).local_work_queue = some 0 ∧
    (run_pending_task (worker_ctx 0) peer_only_state).1 =
      some (Source.stolen, task_ok0) ∧
    (peer_only_state.queues.getD 0 [] = [] ∧ peer_only_state.work_queue = []) :=
  ⟨rfl, rfl,
    C7_steal_requires_both_empty (worker_ctx 0) peer_only_state 0 task_ok0 rfl rfl⟩

/-- C4: a callable that throws during execution has its exception stored
into its future by the `std::packaged_task` call operator (`get()` then
re-raises it), and the exception does not reach the worker loop: the
`_done` flag is untouched, so the worker keeps iterating and processing
tasks. -/
theorem C4_exception_captured (ctx : ThreadCtx) (st : PoolState) (src : Source)
    (t : Task) (e : Nat) (hrun : (run_pending_task ctx st).1 = some (src, t))
    (herr : t.fn () = Outcome.err e) :
    (run_pending_task ctx st).2.futures t.tid = FutureSt.resolved (Outcome.err e) ∧
    (run_pending_task ctx st).2.done = st.done := by
  rcases run_spec ctx st with ⟨hnone, -⟩ | ⟨src', t', heq, -, hfut, -, -, hdone⟩
  · rw [hrun] at hnone
    exact Option.noConfusion hnone
  · have h2 := heq.symm.trans hrun
    simp only [Option.some.injEq, Prod.mk.injEq] at h2
    obtain ⟨-, rfl⟩ := h2
    refine ⟨?_, hdone⟩
    rw [hfut]
    simp [herr]

/-- Witness for C4: in `err_then_ok_state`, worker 0 pops the throwing
`task_err3`, its future resolves to the error, and on the very next
iteration the worker still executes `task_ok5` — the worker thread
survived the task's failure. -/
theorem C4_witness :
    (run_pending_task (worker_ctx 0) err_then_ok_state).1 =
      some (Source.fromLocal, task_err3) ∧
    task_err3.fn () = Outcome.err 3 ∧
    (run_pending_task (worker_ctx 0) err_then_ok_state).2.futures task_err3.tid =
      FutureSt.resolved (Outcome.err 3) ∧
    (run_pending_task (worker_ctx 0)
        (run_pending_task (worker_ctx 0) err_then_ok_state).2).2.futures 1 =
      FutureSt.resolved (Outcome.ok 5) :=
  ⟨rfl, rfl,
    (C4_exception_captured (worker_ctx 0) err_then_ok_state Source.fromLocal
      task_err3 3 rfl rfl).1, rfl⟩

/-- C3: when the pool is destroyed, every task still resident in a queue
is dropped unexecuted — its future goes from pending to broken (a blocked
`get()` receives the broken-promise error instead of hanging), the queues
are emptied, and the worker loop, observing `_done`, performs no further
iteration. -/
theorem C3_shutdown_breaks_pending (st : PoolState) (tid : Nat)
    (hres : resident st tid = true) (hpend : st.futures tid = FutureSt.pending) :
    (destroy st).futures tid = FutureSt.broken ∧
    resident (destroy st) tid = false ∧
    (∀ ctx fuel, worker_loop ctx fuel (destroy st) = destroy st) := by
  refine ⟨?_, ?_, ?_⟩
  · show (if resident st tid = true ∧ st.futures tid = FutureSt.pending
        then FutureSt.broken else st.futures tid) = FutureSt.broken
    rw [if_pos ⟨hres, hpend⟩]
  · simp [resident, destroy, List.any_map, Function.comp]
  · intro ctx fuel
    cases fuel with
    | zero => rfl
    | succ n => simp [worker_loop, destroy]

/-- Witness for C3: after an external thread submits `ok7` to a 1-worker
pool, destroying the pool breaks the pending future of the still-queued
task. -/
theorem C3_witness :
    resident one_submitted_state 0 = true ∧
    one_submitted_state.futures 0 = FutureSt.pending ∧
    (destroy one_submitted_state).futures 0 = FutureSt.broken :=
  ⟨rfl, rfl, (C3_shutdown_breaks_pending one_submitted_state 0 rfl rfl).1⟩

end larva

namespace larva

/-- What `submit` did: it returned the fresh id, bumped the counter, made
the new future pending, and every resident task is an old one or the
newly wrapped one. -/
lemma submit_spec (ctx : ThreadCtx) (g : Unit → Outcome) (st : PoolState) :
    (submit ctx g st).1 = st.next_id ∧
    (submit ctx g st).2.next_id = st.next_id + 1 ∧
    (submit ctx g st).2.futures =
      (fun i => if i = st.next_id then FutureSt.pending else st.futures i) ∧
    ∀ u ∈ tasks_of (submit ctx g st).2, u ∈ tasks_of st ∨ u = ⟨st.next_id, g⟩ := by
  cases hctx : ctx.local_work_queue with
  | none =>
    simp only [submit, hctx]
    refine ⟨trivial, trivial, trivial, ?_⟩
    intro u hu
    simp only [tasks_of, threadsafe_queue.push] at hu ⊢
    rcases List.mem_append.mp hu with hu' | hu'
    · rcases List.mem_append.mp hu' with h2 | h2
      · exact Or.inl (List.mem_append_left _ h2)
      · simp at h2
        exact Or.inr h2
    · exact Or.inl (List.mem_append_right _ hu')
  | some w =>
    simp only [submit, hctx]
    refine ⟨trivial, trivial, trivial, ?_⟩
    intro u hu
    simp only [tasks_of] at hu ⊢
    rcases List.mem_append.mp hu with hu' | hu'
    · exact Or.inl (List.mem_append_left _ hu')
    · rcases List.mem_flatten.mp hu' with ⟨l, hl, hul⟩
      rcases List.mem_or_eq_of_mem_set hl with hl' | rfl
      · exact Or.inl (List.mem_append_right _ (List.mem_flatten.mpr ⟨l, hl', hul⟩))
      · simp only [stealing_queue.push] at hul
        rcases List.mem_cons.mp hul with rfl | h2
        · exact Or.inr rfl
        · exact Or.inl (List.mem_append_right _ (mem_getD_flatten h2))

/-- Invariant `tracks` is preserved by every interleaving step. -/
lemma tracks_do_step {tid : Nat} {f : Unit → Outcome} {st : PoolState} (s : Step)
    (h : tracks tid f st) : tracks tid f (do_step s st) := by
  obtain ⟨h1, h2, h3, h4⟩ := h
  cases s with
  | run ctx =>
    show tracks tid f (run_pending_task ctx st).2
    rcases run_spec ctx st with ⟨-, heq⟩ | ⟨src, t, -, htmem, hfut, hsub, hnext, -⟩
    · rw [heq]
      exact ⟨h1, h2, h3, h4⟩
    · have hres : (run_pending_task ctx st).2.futures tid =
          (if tid = t.tid then FutureSt.resolved (t.fn ()) else st.futures tid) := by
        rw [hfut]
      refine ⟨hnext ▸ h1, ?_, ?_, ?_⟩
      · intro u hu
        rw [hnext]
        exact h2 u (hsub u hu)
      · intro u hu htid
        exact h3 u (hsub u hu) htid
      · by_cases hc : tid = t.tid
        · have hfn := h3 t htmem hc.symm
          right; right
          rw [hres, if_pos hc, hfn]
        · rw [hres, if_neg hc]
          exact h4
  | sub ctx g =>
    show tracks tid f (submit ctx g st).2
    obtain ⟨-, hnext, hfut, hmem⟩ := submit_spec ctx g st
    have hres : (submit ctx g st).2.futures tid =
        (if tid = st.next_id then FutureSt.pending else st.futures tid) := by
      rw [hfut]
    refine ⟨?_, ?_, ?_, ?_⟩
    · rw [hnext]; omega
    · intro u hu
      rw [hnext]
      rcases hmem u hu with h' | rfl
      · exact Nat.lt_succ_of_lt (h2 u h')
      · exact Nat.lt_succ_self _
    · intro u hu htid
      rcases hmem u hu with h' | rfl
      · exact h3 u h' htid
      · simp only at htid
        exact absurd htid (by omega)
    · rw [hres, if_neg (by omega)]
      exact h4
  | destroy =>
    show tracks tid f (destroy st)
    have hres : (destroy st).futures tid =
        (if resident st tid = true ∧ st.futures tid = FutureSt.pending
          then FutureSt.broken else st.futures tid) := rfl
    refine ⟨h1, ?_, ?_, ?_⟩
    · intro u hu
      exfalso
      simp [tasks_of, destroy] at hu
    · intro u hu
      exfalso
      simp [tasks_of, destroy] at hu
    · by_cases hc : resident st tid = true ∧ st.futures tid = FutureSt.pending
      · rw [hres, if_pos hc]
        right; left; rfl
      · rw [hres, if_neg hc]
        exact h4

lemma tracks_run_sched {tid : Nat} {f : Unit → Outcome} :
    ∀ (sched : List Step) {st : PoolState}, tracks tid f st →
      tracks tid f (run_sched sched st) := by
  intro sched
  induction sched with
  | nil => intro st h; exact h
  | cons s rest ih => intro st h; exact ih (tracks_do_step s h)

/-- C1: submitting a deterministic zero-argument callable `f` and later
observing its handle resolved — under any interleaving of submissions,
worker iterations and even pool destruction, i.e. provided the pool was
not shut down before the task ran — yields exactly `f ()`'s outcome.
The hypothesis `hwf` says all resident task ids were allocated, which
holds for every state reachable from a fresh pool. -/
theorem C1_submit_roundtrip (ctx : ThreadCtx) (f : Unit → Outcome) (st : PoolState)
    (hwf : ∀ t ∈ tasks_of st, t.tid < st.next_id)
    (sched : List Step) (o : Outcome)
    (hres : (run_sched sched (submit ctx f st).2).futures (submit ctx f st).1 =
      FutureSt.resolved o) :
    o = f () := by
  obtain ⟨hfst, hnext, hfut, hmem⟩ := submit_spec ctx f st
  have htr : tracks st.next_id f (submit ctx f st).2 := by
    refine ⟨?_, ?_, ?_, ?_⟩
    · rw [hnext]; omega
    · intro u hu
      rw [hnext]
      rcases hmem u hu with h' | rfl
      · exact Nat.lt_succ_of_lt (hwf u h')
      · exact Nat.lt_succ_self _
    · intro u hu htid
      rcases hmem u hu with h' | rfl
      · exact absurd htid (Nat.ne_of_lt (hwf u h'))
      · rfl
    · left
      have hp : (submit ctx f st).2.futures st.next_id =
          (if st.next_id = st.next_id then FutureSt.pending
            else st.futures st.next_id) := by
        rw [hfut]
      rw [hp, if_pos rfl]
  have hfin := tracks_run_sched sched htr
  rw [hfst] at hres
  rcases hfin.2.2.2 with hp | hb | hr
  · rw [hres] at hp
    exact FutureSt.noConfusion hp
  · rw [hres] at hb
    exact FutureSt.noConfusion hb
  · rw [hres] at hr
    injection hr

/-- Witness for C1: an external thread submits `ok7` to a fresh 2-worker
pool, worker 0 runs one iteration, and the resolved value is `ok7 ()`. -/
theorem C1_witness :
    (∀ t ∈ tasks_of (init_pool 2), t.tid < (init_pool 2).next_id) ∧
    Outcome.ok 7 = ok7 () :=
  ⟨fun t ht => absurd ht (List.not_mem_nil t),
    C1_submit_roundtrip external_ctx ok7 (init_pool 2)
      (fun t ht => absurd ht (List.not_mem_nil t))
      [Step.run (worker_ctx 0)] (Outcome.ok 7) rfl⟩

end larva
